import Mathlib

/-!
Shallow embedding of the `local_chain` module of the `chain` crate
(`src/crates/chain/src/local_chain.rs`, with the oracle contract from
`src/crates/chain/src/chain_oracle.rs`).

`LocalChain` wraps a `BTreeMap<u32, BlockHash>`.  We model a `BTreeMap` as an
association list sorted strictly ascending by key (`IsBTree`), which is exactly
the iteration order a `BTreeMap` presents; heights are `Nat` (`u32` values are
`≤ UMAX`), and `BlockHash` is `Nat` (an opaque identifier with equality).
-/

/-- Opaque block identifier; only equality is used by the code. -/
abbrev BlockHash := Nat

/-- Model of the `LocalChain.blocks` field: the contents of a
`BTreeMap<u32, BlockHash>` in ascending key order. -/
abbrev LocalChain := List (Nat × BlockHash)

/-- Model of `ChangeSet = BTreeMap<u32, Option<BlockHash>>`. -/
abbrev ChangeSet := List (Nat × Option BlockHash)

/-- The `BTreeMap` invariant: entries strictly ascending by key. -/
def IsBTree {V : Type} (m : List (Nat × V)) : Prop :=
  m.Pairwise (fun a b => a.1 < b.1)

instance {V : Type} (m : List (Nat × V)) : Decidable (IsBTree m) := by
  unfold IsBTree; infer_instance

/-- Model of `BTreeMap::get`: the value stored at key `k`, if any. -/
def btGet {V : Type} (m : List (Nat × V)) (k : Nat) : Option V :=
  (m.find? (fun p => decide (p.1 = k))).map Prod.snd

/-- Model of `BTreeMap::insert` on the sorted-entry representation. -/
def btInsert {V : Type} (k : Nat) (v : V) : List (Nat × V) → List (Nat × V)
  | [] => [(k, v)]
  | (a, w) :: rest =>
    if k < a then (k, v) :: (a, w) :: rest
    else if k = a then (k, v) :: rest
    else (a, w) :: btInsert k v rest

/-- Model of `BTreeMap::remove` (the resulting contents). -/
def btRemove {V : Type} (k : Nat) (m : List (Nat × V)) : List (Nat × V) :=
  m.filter (fun p => decide (p.1 ≠ k))

/-- Model of `BTreeMap::contains_key`. -/
def containsKey {V : Type} (m : List (Nat × V)) (k : Nat) : Bool :=
  m.any (fun p => decide (p.1 = k))

/-- `u32::MAX`, used by `determine_changeset` as the "infinity" sentinel. -/
def UMAX : Nat := 4294967295

/-- `BlockId { height: u32, hash: BlockHash }`. -/
structure BlockId where
  height : Nat
  hash : BlockHash
deriving DecidableEq, Repr

/-- `LocalChain::is_block_in_chain` (the `ChainOracle` implementation).
`Error = Infallible` is modelled by `Empty`. -/
def is_block_in_chain (chain : LocalChain) (block static_block : BlockId) :
    Except Empty (Option Bool) :=
  if static_block.height < block.height then .ok none
  else
    .ok (match btGet chain block.height, btGet chain static_block.height with
      | some hash, some static_hash =>
        some (hash == block.hash && static_hash == static_block.hash)
      | _, _ => none)

/-- `update.keys().last()` in `determine_changeset`: the greatest key of the
update (a `BTreeMap` iterates ascending). -/
def update_tip_of (update : LocalChain) : Option Nat :=
  (update.map Prod.fst).getLast?

/-- The `agreement_height` of `determine_changeset`: the latest update height
whose hash coincides with the chain (`update.iter().rev().find(..)`). -/
def agreement_height_of (chain update : LocalChain) : Option Nat :=
  (update.reverse.find? (fun p => decide (btGet chain p.1 = some p.2))).map Prod.fst

/-- The `invalidate_lb` of `determine_changeset`, given the update tip. -/
def invalidate_lb_of (chain update : LocalChain) (tip : Nat) : Nat :=
  match agreement_height_of chain update with
  | some h => if h = tip then UMAX else h + 1
  | none => 0

/-- The `invalidate_from_height` of `determine_changeset`:
`self.blocks.range(invalidate_lb..).next()`, i.e. the first stored entry with
key at or above the lower bound (`none` when the update is empty, in which case
the function returned early). -/
def invalidate_from_of (chain update : LocalChain) : Option Nat :=
  match update_tip_of update with
  | none => none
  | some tip =>
    ((chain.filter (fun p => decide (invalidate_lb_of chain update tip ≤ p.1))).head?).map
      Prod.fst

/-- The deletion seed of the changeset: every stored entry at or above the
first invalidation height becomes a `None` entry. -/
def deleteSuffix (chain : LocalChain) (fih : Nat) : ChangeSet :=
  (chain.filter (fun p => decide (fih ≤ p.1))).map (fun p => (p.1, (none : Option BlockHash)))

/-- The final loop of `determine_changeset`: for every update entry that the
chain does not already record identically, insert a `Some` entry. -/
def applyUpdateEntries (chain update : LocalChain) (init : ChangeSet) : ChangeSet :=
  update.foldl
    (fun cs p => if some p.2 ≠ btGet chain p.1 then btInsert p.1 (some p.2) cs else cs)
    init

/-- `LocalChain::determine_changeset`.  The error value is the
`UpdateNotConnectedError(height)` payload. -/
def determine_changeset (chain update : LocalChain) : Except Nat ChangeSet :=
  match update_tip_of update with
  | none => .ok []
  | some _ =>
    match invalidate_from_of chain update with
    | some fih =>
      if containsKey update fih then
        .ok (applyUpdateEntries chain update (deleteSuffix chain fih))
      else
        .error fih
    | none => .ok (applyUpdateEntries chain update [])

/-- `LocalChain::apply_changeset`: insert each `Some` entry, remove each `None`
entry, in ascending changeset order. -/
def apply_changeset (chain : LocalChain) (changeset : ChangeSet) : LocalChain :=
  changeset.foldl
    (fun c p =>
      match p.2 with
      | some hash => btInsert p.1 hash c
      | none => btRemove p.1 c)
    chain

/-- `LocalChain::apply_update`: the resulting chain contents paired with the
returned result.  On error the chain is returned unchanged, as the Rust method
returns before mutating `self`. -/
def apply_update (chain update : LocalChain) : LocalChain × Except Nat ChangeSet :=
  match determine_changeset chain update with
  | .error e => (chain, .error e)
  | .ok cs => (apply_changeset chain cs, .ok cs)

/-- `LocalChain::initial_changeset`: every stored entry as a `Some` entry. -/
def initial_changeset (chain : LocalChain) : ChangeSet :=
  chain.map (fun p => (p.1, some p.2))

/-! ## Basic lemmas about the `BTreeMap` model -/

theorem btGet_nil {V : Type} (k : Nat) : btGet ([] : List (Nat × V)) k = none := rfl

theorem btGet_cons {V : Type} (a : Nat × V) (m : List (Nat × V)) (k : Nat) :
    btGet (a :: m) k = if a.1 = k then some a.2 else btGet m k := by
  by_cases h : a.1 = k <;> simp [btGet, List.find?_cons, h]

theorem IsBTree.cons_iff {V : Type} {a : Nat × V} {m : List (Nat × V)} :
    IsBTree (a :: m) ↔ (∀ b ∈ m, a.1 < b.1) ∧ IsBTree m :=
  List.pairwise_cons

theorem mem_of_btGet_eq_some {V : Type} {m : List (Nat × V)} {k : Nat} {v : V}
    (h : btGet m k = some v) : (k, v) ∈ m := by
  induction m with
  | nil => simp [btGet] at h
  | cons a rest ih =>
    obtain ⟨a1, a2⟩ := a
    rw [btGet_cons] at h
    split at h
    case isTrue heq =>
      have h1 : a1 = k := heq
      have h2 : a2 = v := Option.some.inj h
      subst h1
      subst h2
      exact List.mem_cons_self _ _
    case isFalse heq =>
      exact List.mem_cons_of_mem _ (ih h)

theorem btGet_eq_some_of_mem {V : Type} {m : List (Nat × V)} {k : Nat} {v : V}
    (hm : IsBTree m) (h : (k, v) ∈ m) : btGet m k = some v := by
  induction m with
  | nil => simp at h
  | cons a rest ih =>
    obtain ⟨a1, a2⟩ := a
    rw [IsBTree.cons_iff] at hm
    rw [btGet_cons]
    rcases List.mem_cons.mp h with h | h
    · injection h with h1 h2
      subst h1
      subst h2
      simp
    · have ha : a1 ≠ k := by
        intro hak
        have := hm.1 (k, v) h
        simp [hak] at this
      simp only [ha, if_false]
      exact ih hm.2 h

theorem btGet_eq_none_iff {V : Type} {m : List (Nat × V)} {k : Nat} :
    btGet m k = none ↔ k ∉ m.map Prod.fst := by
  induction m with
  | nil => simp [btGet]
  | cons a rest ih =>
    obtain ⟨a1, a2⟩ := a
    rw [btGet_cons]
    by_cases ha : a1 = k
    · simp [ha]
    · simp only [ha, if_false, ih, List.map_cons, List.mem_cons]
      constructor
      · intro h hk
        rcases hk with hk | hk
        · exact ha hk.symm
        · exact h hk
      · intro h hk
        exact h (Or.inr hk)

theorem containsKey_iff_btGet {V : Type} {m : List (Nat × V)} {k : Nat} :
    containsKey m k = true ↔ btGet m k ≠ none := by
  rw [Ne, btGet_eq_none_iff, not_not]
  unfold containsKey
  rw [List.any_eq_true]
  constructor
  · rintro ⟨p, hp, hk⟩
    rw [decide_eq_true_eq] at hk
    exact List.mem_map.mpr ⟨p, hp, hk⟩
  · intro hk
    rcases List.mem_map.mp hk with ⟨p, hp, hpk⟩
    exact ⟨p, hp, by rw [decide_eq_true_eq]; exact hpk⟩

theorem containsKey_eq_false_iff {V : Type} {m : List (Nat × V)} {k : Nat} :
    containsKey m k = false ↔ btGet m k = none := by
  cases hc : containsKey m k with
  | false =>
    simp only [true_iff]
    by_contra hg
    rw [containsKey_iff_btGet.mpr hg] at hc
    cases hc
  | true =>
    have hne := containsKey_iff_btGet.mp hc
    exact ⟨fun h => Bool.noConfusion h, fun h => (hne h).elim⟩

theorem btGet_btInsert_self {V : Type} (m : List (Nat × V)) (k : Nat) (v : V) :
    btGet (btInsert k v m) k = some v := by
  induction m with
  | nil => simp [btInsert, btGet_cons]
  | cons a rest ih =>
    obtain ⟨a1, a2⟩ := a
    unfold btInsert
    by_cases h1 : k < a1
    · simp [h1, btGet_cons]
    · by_cases h2 : k = a1
      · simp [h1, h2, btGet_cons]
      · have hne : a1 ≠ k := fun h => h2 h.symm
        simp only [h1, h2, if_false]
        rw [btGet_cons]
        simp only [hne, if_false]
        exact ih

theorem btGet_btInsert_ne {V : Type} (m : List (Nat × V)) {k h : Nat} (v : V)
    (hne : h ≠ k) : btGet (btInsert k v m) h = btGet m h := by
  have hkh : k ≠ h := fun hh => hne hh.symm
  induction m with
  | nil =>
    show btGet [(k, v)] h = btGet [] h
    rw [btGet_cons]
    simp [hkh]
  | cons a rest ih =>
    obtain ⟨a1, a2⟩ := a
    unfold btInsert
    by_cases h1 : k < a1
    · rw [if_pos h1, btGet_cons]
      simp [hkh]
    · rw [if_neg h1]
      by_cases h2 : k = a1
      · rw [if_pos h2, btGet_cons, btGet_cons]
        have hj : a1 ≠ h := h2 ▸ hkh
        simp [hkh, hj]
      · rw [if_neg h2, btGet_cons, btGet_cons, ih]

theorem btRemove_cons {V : Type} (a1 : Nat) (a2 : V) (rest : List (Nat × V)) (k : Nat) :
    btRemove k ((a1, a2) :: rest) =
      if a1 = k then btRemove k rest else (a1, a2) :: btRemove k rest := by
  by_cases h : a1 = k <;> simp [btRemove, List.filter_cons, h]

theorem btGet_btRemove_self {V : Type} (m : List (Nat × V)) (k : Nat) :
    btGet (btRemove k m) k = none := by
  rw [btGet_eq_none_iff]
  intro hk
  rcases List.mem_map.mp hk with ⟨p, hp, hpk⟩
  rw [btRemove, List.mem_filter] at hp
  simp at hp
  exact hp.2 hpk

theorem btGet_btRemove_ne {V : Type} (m : List (Nat × V)) {k h : Nat}
    (hne : h ≠ k) : btGet (btRemove k m) h = btGet m h := by
  induction m with
  | nil => rfl
  | cons a rest ih =>
    obtain ⟨a1, a2⟩ := a
    rw [btRemove_cons]
    by_cases ha : a1 = k
    · rw [if_pos ha, ih, btGet_cons]
      have : a1 ≠ h := by
        rw [ha]
        exact fun hh => hne hh.symm
      simp [this]
    · rw [if_neg ha, btGet_cons, btGet_cons, ih]

/-! ## Sortedness preservation and extensionality -/

theorem mem_btInsert {V : Type} {m : List (Nat × V)} {k : Nat} {v : V} {b : Nat × V}
    (hb : b ∈ btInsert k v m) : b = (k, v) ∨ b ∈ m := by
  induction m with
  | nil =>
    simp [btInsert] at hb
    exact Or.inl hb
  | cons a rest ih =>
    obtain ⟨a1, a2⟩ := a
    unfold btInsert at hb
    by_cases h1 : k < a1
    · rw [if_pos h1] at hb
      rcases List.mem_cons.mp hb with hb | hb
      · exact Or.inl hb
      · exact Or.inr hb
    · rw [if_neg h1] at hb
      by_cases h2 : k = a1
      · rw [if_pos h2] at hb
        rcases List.mem_cons.mp hb with hb | hb
        · exact Or.inl hb
        · exact Or.inr (List.mem_cons_of_mem _ hb)
      · rw [if_neg h2] at hb
        rcases List.mem_cons.mp hb with hb | hb
        · exact Or.inr (hb ▸ List.mem_cons_self _ _)
        · rcases ih hb with hh | hh
          · exact Or.inl hh
          · exact Or.inr (List.mem_cons_of_mem _ hh)

theorem isBTree_btInsert {V : Type} {m : List (Nat × V)} (hm : IsBTree m)
    (k : Nat) (v : V) : IsBTree (btInsert k v m) := by
  induction m with
  | nil =>
    show IsBTree [(k, v)]
    exact List.pairwise_singleton _ _
  | cons a rest ih =>
    obtain ⟨a1, a2⟩ := a
    rw [IsBTree.cons_iff] at hm
    unfold btInsert
    by_cases h1 : k < a1
    · rw [if_pos h1, IsBTree.cons_iff]
      refine ⟨?_, IsBTree.cons_iff.mpr hm⟩
      intro b hb
      rcases List.mem_cons.mp hb with hb | hb
      · rw [hb]
        exact h1
      · exact h1.trans (hm.1 b hb)
    · rw [if_neg h1]
      by_cases h2 : k = a1
      · rw [if_pos h2, IsBTree.cons_iff]
        exact ⟨fun b hb => h2 ▸ hm.1 b hb, hm.2⟩
      · rw [if_neg h2, IsBTree.cons_iff]
        refine ⟨?_, ih hm.2⟩
        intro b hb
        rcases mem_btInsert hb with hb | hb
        · rw [hb]
          exact Nat.lt_of_le_of_ne (Nat.le_of_not_lt h1) (fun hh => h2 hh.symm)
        · exact hm.1 b hb

theorem isBTree_btRemove {V : Type} {m : List (Nat × V)} (hm : IsBTree m)
    (k : Nat) : IsBTree (btRemove k m) :=
  List.Pairwise.sublist (List.filter_sublist m) hm

theorem isBTree_filterKeys {V : Type} {m : List (Nat × V)} (hm : IsBTree m)
    (p : Nat × V → Bool) : IsBTree (m.filter p) :=
  List.Pairwise.sublist (List.filter_sublist m) hm

theorem isBTree_mapValues {V W : Type} {m : List (Nat × V)} (hm : IsBTree m)
    (g : Nat × V → W) : IsBTree (m.map (fun p => (p.1, g p))) := by
  unfold IsBTree
  rw [List.pairwise_map]
  exact hm.imp (fun h => h)

theorem btree_ext {V : Type} {m m' : List (Nat × V)} (hm : IsBTree m) (hm' : IsBTree m')
    (h : ∀ k, btGet m k = btGet m' k) : m = m' := by
  induction m generalizing m' with
  | nil =>
    cases m' with
    | nil => rfl
    | cons b tl =>
      obtain ⟨b1, b2⟩ := b
      have hb := h b1
      rw [btGet_nil, btGet_cons] at hb
      simp at hb
  | cons a tl ih =>
    obtain ⟨a1, a2⟩ := a
    cases m' with
    | nil =>
      have ha := h a1
      rw [btGet_nil, btGet_cons] at ha
      simp at ha
    | cons b tl' =>
      obtain ⟨b1, b2⟩ := b
      rw [IsBTree.cons_iff] at hm hm'
      have hkey : a1 = b1 := by
        rcases Nat.lt_trichotomy a1 b1 with hlt | heq | hgt
        · exfalso
          have ha := h a1
          rw [btGet_cons] at ha
          simp at ha
          rcases List.mem_cons.mp (mem_of_btGet_eq_some ha.symm) with hh | hh
          · injection hh with hh1 _
            exact Nat.lt_irrefl _ (hh1 ▸ hlt)
          · exact Nat.lt_irrefl _ (Nat.lt_trans hlt (hm'.1 _ hh))
        · exact heq
        · exfalso
          have hb := h b1
          rw [btGet_cons (b1, b2)] at hb
          simp at hb
          rcases List.mem_cons.mp (mem_of_btGet_eq_some hb) with hh | hh
          · injection hh with hh1 _
            exact Nat.lt_irrefl _ (hh1 ▸ hgt)
          · exact Nat.lt_irrefl _ (Nat.lt_trans hgt (hm.1 _ hh))
      subst hkey
      have hval : a2 = b2 := by
        have ha := h a1
        rw [btGet_cons, btGet_cons] at ha
        simp at ha
        exact ha
      subst hval
      have htl : ∀ k, btGet tl k = btGet tl' k := by
        intro k
        by_cases hk : a1 = k
        · subst hk
          have h1 : btGet tl a1 = none := by
            rw [btGet_eq_none_iff]
            intro hmem
            rcases List.mem_map.mp hmem with ⟨p, hp, hpk⟩
            exact Nat.lt_irrefl _ (hpk ▸ hm.1 p hp)
          have h2 : btGet tl' a1 = none := by
            rw [btGet_eq_none_iff]
            intro hmem
            rcases List.mem_map.mp hmem with ⟨p, hp, hpk⟩
            exact Nat.lt_irrefl _ (hpk ▸ hm'.1 p hp)
          rw [h1, h2]
        · have ha := h k
          rw [btGet_cons, btGet_cons] at ha
          simpa [hk] using ha
      exact congrArg _ (ih hm.2 hm'.2 htl)

/-! ## Lookup characterizations of the algorithm's building blocks -/

theorem btGet_map {V W : Type} (m : List (Nat × V)) (g : V → W) (k : Nat) :
    btGet (m.map (fun p => (p.1, g p.2))) k = (btGet m k).map g := by
  induction m with
  | nil => rfl
  | cons a rest ih =>
    obtain ⟨a1, a2⟩ := a
    rw [List.map_cons, btGet_cons, btGet_cons]
    by_cases h : a1 = k
    · simp [h]
    · simp [h, ih]

theorem btGet_filter_ge {V : Type} (m : List (Nat × V)) (lb k : Nat) :
    btGet (m.filter (fun p => decide (lb ≤ p.1))) k =
      if lb ≤ k then btGet m k else none := by
  induction m with
  | nil => simp [btGet]
  | cons a rest ih =>
    obtain ⟨a1, a2⟩ := a
    rw [List.filter_cons]
    by_cases hf : lb ≤ a1
    · rw [if_pos (by simp [hf]), btGet_cons, btGet_cons]
      by_cases hk : a1 = k
      · subst hk
        simp [hf]
      · simp [hk, ih]
    · rw [if_neg (by simp [hf]), ih, btGet_cons]
      by_cases hk : a1 = k
      · subst hk
        simp [hf]
      · simp [hk]

theorem filter_head_least {V : Type} {m : List (Nat × V)} (hm : IsBTree m) {lb : Nat}
    {p : Nat × V} (hp : (m.filter (fun q => decide (lb ≤ q.1))).head? = some p) :
    p ∈ m ∧ lb ≤ p.1 ∧ ∀ q ∈ m, lb ≤ q.1 → p.1 ≤ q.1 := by
  induction m with
  | nil => simp at hp
  | cons a rest ih =>
    rw [IsBTree.cons_iff] at hm
    rw [List.filter_cons] at hp
    by_cases hf : lb ≤ a.1
    · rw [if_pos (by simp [hf]), List.head?_cons] at hp
      injection hp with hp
      subst hp
      refine ⟨List.mem_cons_self _ _, hf, ?_⟩
      intro q hq _
      rcases List.mem_cons.mp hq with hq | hq
      · rw [hq]
      · exact Nat.le_of_lt (hm.1 q hq)
    · rw [if_neg (by simp [hf])] at hp
      obtain ⟨hmem, hle, hleast⟩ := ih hm.2 hp
      refine ⟨List.mem_cons_of_mem _ hmem, hle, ?_⟩
      intro q hq hlbq
      rcases List.mem_cons.mp hq with hq | hq
      · exact absurd (hq ▸ hlbq) hf
      · exact hleast q hq hlbq

theorem filter_head_none {V : Type} {m : List (Nat × V)} {lb : Nat} :
    (m.filter (fun q => decide (lb ≤ q.1))).head? = none ↔ ∀ q ∈ m, ¬ lb ≤ q.1 := by
  rw [List.head?_eq_none_iff, List.filter_eq_nil_iff]
  constructor
  · intro h q hq
    have := h q hq
    simpa using this
  · intro h q hq
    simpa using h q hq

theorem getLast?_greatest {l : List Nat} (hl : l.Pairwise (· < ·)) :
    ∀ {t : Nat}, l.getLast? = some t → t ∈ l ∧ ∀ k ∈ l, k ≤ t := by
  induction l with
  | nil =>
    intro t ht
    simp at ht
  | cons a rest ih =>
    intro t ht
    cases rest with
    | nil =>
      simp at ht
      subst ht
      simp
    | cons b tl =>
      rw [List.getLast?_cons_cons] at ht
      rw [List.pairwise_cons] at hl
      obtain ⟨hmem, hle⟩ := ih hl.2 ht
      refine ⟨List.mem_cons_of_mem _ hmem, ?_⟩
      intro k hk
      rcases List.mem_cons.mp hk with hk | hk
      · subst hk
        exact Nat.le_of_lt
          (Nat.lt_of_lt_of_le (hl.1 b (List.mem_cons_self _ _)) (hle b (List.mem_cons_self _ _)))
      · exact hle k hk

theorem getLast?_eq_none_iff_nil {l : List Nat} : l.getLast? = none ↔ l = [] :=
  List.getLast?_eq_none_iff

theorem find_desc_greatest {V : Type} {l : List (Nat × V)}
    (hl : l.Pairwise (fun a b => b.1 < a.1)) (p : Nat × V → Bool) :
    ∀ {x : Nat × V}, l.find? p = some x →
      x ∈ l ∧ p x = true ∧ ∀ y ∈ l, p y = true → y.1 ≤ x.1 := by
  induction l with
  | nil =>
    intro x hx
    simp at hx
  | cons a rest ih =>
    intro x hx
    rw [List.pairwise_cons] at hl
    cases hpa : p a with
    | true =>
      rw [List.find?_cons_of_pos _ hpa] at hx
      injection hx with hx
      subst hx
      refine ⟨List.mem_cons_self _ _, hpa, ?_⟩
      intro y hy _
      rcases List.mem_cons.mp hy with hy | hy
      · rw [hy]
      · exact Nat.le_of_lt (hl.1 y hy)
    | false =>
      rw [List.find?_cons_of_neg _ (by simp [hpa])] at hx
      obtain ⟨hmem, hpx, hgr⟩ := ih hl.2 hx
      refine ⟨List.mem_cons_of_mem _ hmem, hpx, ?_⟩
      intro y hy hpy
      rcases List.mem_cons.mp hy with hy | hy
      · rw [hy] at hpy
        rw [hpy] at hpa
        cases hpa
      · exact hgr y hy hpy

/-! ## Specifications of the intermediate values of `determine_changeset` -/

theorem update_tip_spec {update : LocalChain} (hu : IsBTree update) {t : Nat}
    (ht : update_tip_of update = some t) :
    t ∈ update.map Prod.fst ∧ ∀ k ∈ update.map Prod.fst, k ≤ t := by
  have hl : (update.map Prod.fst).Pairwise (· < ·) := by
    rw [List.pairwise_map]
    exact hu.imp (fun h => h)
  exact getLast?_greatest hl ht

theorem update_tip_eq_none_iff {update : LocalChain} :
    update_tip_of update = none ↔ update = [] := by
  unfold update_tip_of
  rw [getLast?_eq_none_iff_nil, List.map_eq_nil_iff]

theorem agreement_spec {chain update : LocalChain} (hu : IsBTree update) {a : Nat}
    (ha : agreement_height_of chain update = some a) :
    ∃ v, (a, v) ∈ update ∧ btGet chain a = some v ∧
      ∀ k w, (k, w) ∈ update → btGet chain k = some w → k ≤ a := by
  unfold agreement_height_of at ha
  rcases Option.map_eq_some'.mp ha with ⟨x, hx, hxa⟩
  have hdesc : update.reverse.Pairwise (fun a b => b.1 < a.1) := by
    rw [List.pairwise_reverse]
    exact hu.imp (fun h => h)
  obtain ⟨hmem, hpx, hgr⟩ := find_desc_greatest hdesc _ hx
  rw [decide_eq_true_eq] at hpx
  refine ⟨x.2, ?_, ?_, ?_⟩
  · rw [← hxa]
    exact List.mem_reverse.mp hmem
  · rw [← hxa]
    exact hpx
  · intro k w hk hkw
    rw [← hxa]
    exact hgr (k, w) (List.mem_reverse.mpr hk) (by rw [decide_eq_true_eq]; exact hkw)

theorem agreement_none {chain update : LocalChain}
    (ha : agreement_height_of chain update = none) :
    ∀ k w, (k, w) ∈ update → btGet chain k ≠ some w := by
  unfold agreement_height_of at ha
  rw [Option.map_eq_none'] at ha
  rw [List.find?_eq_none] at ha
  intro k w hk hkw
  have := ha (k, w) (List.mem_reverse.mpr hk)
  rw [decide_eq_true_eq] at this
  exact this hkw

theorem invalidate_from_spec {chain update : LocalChain} (hc : IsBTree chain)
    {tip f : Nat} (ht : update_tip_of update = some tip)
    (hf : invalidate_from_of chain update = some f) :
    f ∈ chain.map Prod.fst ∧ invalidate_lb_of chain update tip ≤ f ∧
      ∀ k ∈ chain.map Prod.fst, invalidate_lb_of chain update tip ≤ k → f ≤ k := by
  unfold invalidate_from_of at hf
  rw [ht] at hf
  rcases Option.map_eq_some'.mp hf with ⟨x, hx, hxf⟩
  obtain ⟨hmem, hlb, hleast⟩ := filter_head_least hc hx
  subst hxf
  refine ⟨List.mem_map_of_mem Prod.fst hmem, hlb, ?_⟩
  intro k hk hlbk
  rcases List.mem_map.mp hk with ⟨q, hq, hqk⟩
  subst hqk
  exact hleast q hq hlbk

theorem invalidate_from_none {chain update : LocalChain} {tip : Nat}
    (ht : update_tip_of update = some tip)
    (hf : invalidate_from_of chain update = none) :
    ∀ k ∈ chain.map Prod.fst, k < invalidate_lb_of chain update tip := by
  unfold invalidate_from_of at hf
  rw [ht, Option.map_eq_none'] at hf
  rw [filter_head_none] at hf
  intro k hk
  rcases List.mem_map.mp hk with ⟨q, hq, hqk⟩
  subst hqk
  exact Nat.lt_of_not_le (hf q hq)

theorem invalidate_from_some_of_mem {chain update : LocalChain} {tip k : Nat}
    (ht : update_tip_of update = some tip) (hk : k ∈ chain.map Prod.fst)
    (hlb : invalidate_lb_of chain update tip ≤ k) :
    ∃ f, invalidate_from_of chain update = some f := by
  cases hf : invalidate_from_of chain update with
  | some f => exact ⟨f, rfl⟩
  | none => exact absurd hlb (Nat.not_le_of_lt (invalidate_from_none ht hf k hk))

/-! ## Lookup characterization of the built changeset and of application -/

theorem btGet_map_none (m : List (Nat × BlockHash)) (k : Nat) :
    btGet (m.map (fun p => (p.1, (none : Option BlockHash)))) k =
      (btGet m k).map (fun _ => (none : Option BlockHash)) := by
  induction m with
  | nil => rfl
  | cons a rest ih =>
    obtain ⟨a1, a2⟩ := a
    rw [List.map_cons, btGet_cons, btGet_cons]
    by_cases h : a1 = k
    · simp [h]
    · simp [h, ih]

theorem btGet_deleteSuffix (chain : LocalChain) (fih k : Nat) :
    btGet (deleteSuffix chain fih) k =
      if fih ≤ k then (btGet chain k).map (fun _ => (none : Option BlockHash)) else none := by
  unfold deleteSuffix
  rw [btGet_map_none, btGet_filter_ge]
  by_cases h : fih ≤ k
  · simp [h]
  · simp [h]

theorem isBTree_deleteSuffix {chain : LocalChain} (hc : IsBTree chain) (fih : Nat) :
    IsBTree (deleteSuffix chain fih) :=
  isBTree_mapValues (isBTree_filterKeys hc _) _

theorem applyUpdateEntries_cons (chain : LocalChain) (a : Nat × BlockHash)
    (rest : LocalChain) (init : ChangeSet) :
    applyUpdateEntries chain (a :: rest) init =
      applyUpdateEntries chain rest
        (if some a.2 ≠ btGet chain a.1 then btInsert a.1 (some a.2) init else init) := by
  unfold applyUpdateEntries
  rw [List.foldl_cons]

theorem btGet_applyUpdateEntries_not_mem {chain update : LocalChain} {init : ChangeSet}
    {k : Nat} (hk : k ∉ update.map Prod.fst) :
    btGet (applyUpdateEntries chain update init) k = btGet init k := by
  induction update generalizing init with
  | nil => rfl
  | cons a rest ih =>
    obtain ⟨a1, a2⟩ := a
    rw [applyUpdateEntries_cons]
    rw [List.map_cons, List.mem_cons] at hk
    push_neg at hk
    rw [ih hk.2]
    by_cases hd : some a2 ≠ btGet chain a1
    · rw [if_pos hd, btGet_btInsert_ne _ _ hk.1]
    · rw [if_neg hd]

theorem btGet_applyUpdateEntries {chain update : LocalChain} (hu : IsBTree update)
    (init : ChangeSet) (k : Nat) :
    btGet (applyUpdateEntries chain update init) k =
      match btGet update k with
      | some v => if some v = btGet chain k then btGet init k else some (some v)
      | none => btGet init k := by
  induction update generalizing init with
  | nil => rfl
  | cons a rest ih =>
    obtain ⟨a1, a2⟩ := a
    rw [IsBTree.cons_iff] at hu
    rw [applyUpdateEntries_cons]
    by_cases hk : a1 = k
    · subst hk
      have hscrut : btGet ((a1, a2) :: rest) a1 = some a2 := by
        rw [btGet_cons]
        simp
      rw [hscrut]
      have hnot : a1 ∉ rest.map Prod.fst := by
        intro hmem
        rcases List.mem_map.mp hmem with ⟨q, hq, hqk⟩
        exact Nat.lt_irrefl _ (hqk ▸ hu.1 q hq)
      rw [btGet_applyUpdateEntries_not_mem hnot]
      show btGet (if some a2 ≠ btGet chain a1 then btInsert a1 (some a2) init else init) a1 =
        if some a2 = btGet chain a1 then btGet init a1 else some (some a2)
      by_cases hd : some a2 = btGet chain a1
      · rw [if_neg (by simpa using hd), if_pos hd]
      · rw [if_pos (by simpa using hd), if_neg hd, btGet_btInsert_self]
    · rw [btGet_cons, ih hu.2]
      have heq :
          btGet (if some a2 ≠ btGet chain a1 then btInsert a1 (some a2) init else init) k =
            btGet init k := by
        by_cases hd : some a2 ≠ btGet chain a1
        · rw [if_pos hd, btGet_btInsert_ne _ _ (fun hh => hk hh.symm)]
        · rw [if_neg hd]
      rw [heq]
      simp only [hk, if_false]

theorem isBTree_applyUpdateEntries {chain update : LocalChain} {init : ChangeSet}
    (hinit : IsBTree init) : IsBTree (applyUpdateEntries chain update init) := by
  induction update generalizing init with
  | nil => exact hinit
  | cons a rest ih =>
    rw [applyUpdateEntries_cons]
    apply ih
    by_cases hd : some a.2 ≠ btGet chain a.1
    · rw [if_pos hd]
      exact isBTree_btInsert hinit _ _
    · rw [if_neg hd]
      exact hinit

theorem apply_changeset_cons (chain : LocalChain) (a : Nat × Option BlockHash)
    (rest : ChangeSet) :
    apply_changeset chain (a :: rest) =
      apply_changeset
        (match a.2 with
         | some hash => btInsert a.1 hash chain
         | none => btRemove a.1 chain)
        rest := by
  unfold apply_changeset
  rw [List.foldl_cons]

theorem btGet_apply_changeset {changeset : ChangeSet} (hcs : IsBTree changeset)
    (chain : LocalChain) (k : Nat) :
    btGet (apply_changeset chain changeset) k =
      match btGet changeset k with
      | some (some v) => some v
      | some none => none
      | none => btGet chain k := by
  induction changeset generalizing chain with
  | nil => rfl
  | cons a rest ih =>
    obtain ⟨a1, a2⟩ := a
    rw [IsBTree.cons_iff] at hcs
    rw [apply_changeset_cons, ih hcs.2, btGet_cons]
    by_cases hk : a1 = k
    · subst hk
      have hnone : btGet rest a1 = none := by
        rw [btGet_eq_none_iff]
        intro hmem
        rcases List.mem_map.mp hmem with ⟨q, hq, hqk⟩
        exact Nat.lt_irrefl _ (hqk ▸ hcs.1 q hq)
      rw [hnone]
      simp only [if_pos rfl]
      cases a2 with
      | some v => exact btGet_btInsert_self _ _ _
      | none => exact btGet_btRemove_self _ _
    · simp only [hk, if_false]
      cases hg : btGet rest k with
      | some w =>
        cases w <;> rfl
      | none =>
        cases a2 with
        | some v => exact btGet_btInsert_ne _ _ (fun hh => hk hh.symm)
        | none => exact btGet_btRemove_ne _ (fun hh => hk hh.symm)

theorem isBTree_apply_changeset {chain : LocalChain} (hc : IsBTree chain)
    (changeset : ChangeSet) : IsBTree (apply_changeset chain changeset) := by
  induction changeset generalizing chain with
  | nil => exact hc
  | cons a rest ih =>
    rw [apply_changeset_cons]
    apply ih
    cases a.2 with
    | some v => exact isBTree_btInsert hc _ _
    | none => exact isBTree_btRemove hc _

/-! ## The success path of `determine_changeset` -/

/-- Helper: the deletion (stale-suffix) part of the built changeset at key `k`. -/
def staleAt (chain update : LocalChain) (k : Nat) : Option (Option BlockHash) :=
  match invalidate_from_of chain update with
  | some f =>
    if f ≤ k then (btGet chain k).map (fun _ => (none : Option BlockHash)) else none
  | none => none

theorem staleAt_some {chain update : LocalChain} {f : Nat}
    (hf : invalidate_from_of chain update = some f) (k : Nat) :
    staleAt chain update k =
      if f ≤ k then (btGet chain k).map (fun _ => (none : Option BlockHash)) else none := by
  unfold staleAt
  rw [hf]

theorem staleAt_none {chain update : LocalChain}
    (hf : invalidate_from_of chain update = none) (k : Nat) :
    staleAt chain update k = none := by
  unfold staleAt
  rw [hf]

theorem determine_changeset_ok_get {chain update : LocalChain} (hu : IsBTree update)
    {cs : ChangeSet} (hok : determine_changeset chain update = .ok cs) (k : Nat) :
    btGet cs k =
      match btGet update k with
      | some v => if some v = btGet chain k then staleAt chain update k else some (some v)
      | none => staleAt chain update k := by
  unfold determine_changeset at hok
  cases ht : update_tip_of update with
  | none =>
    simp only [ht] at hok
    injection hok with hok
    subst hok
    have hupd : update = [] := update_tip_eq_none_iff.mp ht
    subst hupd
    rw [staleAt_none (show invalidate_from_of chain [] = none from rfl), btGet_nil, btGet_nil]
  | some tip =>
    simp only [ht] at hok
    cases hf : invalidate_from_of chain update with
    | some f =>
      simp only [hf] at hok
      by_cases hcon : containsKey update f = true
      · rw [if_pos hcon] at hok
        injection hok with hok
        subst hok
        rw [btGet_applyUpdateEntries hu, btGet_deleteSuffix, staleAt_some hf]
      · rw [if_neg hcon] at hok
        cases hok
    | none =>
      simp only [hf] at hok
      injection hok with hok
      subst hok
      rw [btGet_applyUpdateEntries hu, btGet_nil, staleAt_none hf]

theorem determine_changeset_ok_isBTree {chain update : LocalChain} (hc : IsBTree chain)
    {cs : ChangeSet} (hok : determine_changeset chain update = .ok cs) : IsBTree cs := by
  unfold determine_changeset at hok
  cases ht : update_tip_of update with
  | none =>
    simp only [ht] at hok
    injection hok with hok
    subst hok
    exact List.Pairwise.nil
  | some tip =>
    simp only [ht] at hok
    cases hf : invalidate_from_of chain update with
    | some f =>
      simp only [hf] at hok
      by_cases hcon : containsKey update f = true
      · rw [if_pos hcon] at hok
        injection hok with hok
        subst hok
        exact isBTree_applyUpdateEntries (isBTree_deleteSuffix hc f)
      · rw [if_neg hcon] at hok
        cases hok
    | none =>
      simp only [hf] at hok
      injection hok with hok
      subst hok
      exact isBTree_applyUpdateEntries List.Pairwise.nil

theorem determine_changeset_ok_connected {chain update : LocalChain} {cs : ChangeSet}
    {f : Nat} (hok : determine_changeset chain update = .ok cs)
    (hf : invalidate_from_of chain update = some f) : containsKey update f = true := by
  unfold determine_changeset at hok
  cases ht : update_tip_of update with
  | none =>
    unfold invalidate_from_of at hf
    rw [ht] at hf
    cases hf
  | some tip =>
    simp only [ht, hf] at hok
    by_cases hcon : containsKey update f = true
    · exact hcon
    · rw [if_neg hcon] at hok
      cases hok

theorem lt_invalidate_lb_of_agree {chain update : LocalChain} (hu : IsBTree update)
    {tip k : Nat} {v : BlockHash} (_ht : update_tip_of update = some tip)
    (hck : btGet chain k = some v) (huk : btGet update k = some v) (hk : k < UMAX) :
    k < invalidate_lb_of chain update tip := by
  have hmem : (k, v) ∈ update := mem_of_btGet_eq_some huk
  cases hag : agreement_height_of chain update with
  | none => exact absurd hck (agreement_none hag k v hmem)
  | some a =>
    obtain ⟨w, hwmem, hcw, hgr⟩ := agreement_spec hu hag
    have hka : k ≤ a := hgr k v hmem hck
    have hlb : invalidate_lb_of chain update tip = if a = tip then UMAX else a + 1 := by
      unfold invalidate_lb_of
      rw [hag]
    rw [hlb]
    by_cases hat : a = tip
    · rw [if_pos hat]
      exact hk
    · rw [if_neg hat]
      exact Nat.lt_succ_of_le hka

/-! ## Case equations for `determine_changeset` -/

theorem determine_changeset_empty {chain update : LocalChain}
    (ht : update_tip_of update = none) : determine_changeset chain update = .ok [] := by
  unfold determine_changeset
  rw [ht]

theorem determine_changeset_no_invalid {chain update : LocalChain} {tip : Nat}
    (ht : update_tip_of update = some tip) (hf : invalidate_from_of chain update = none) :
    determine_changeset chain update = .ok (applyUpdateEntries chain update []) := by
  unfold determine_changeset
  rw [ht, hf]

theorem determine_changeset_connected {chain update : LocalChain} {tip f : Nat}
    (ht : update_tip_of update = some tip) (hf : invalidate_from_of chain update = some f)
    (hcon : containsKey update f = true) :
    determine_changeset chain update =
      .ok (applyUpdateEntries chain update (deleteSuffix chain f)) := by
  unfold determine_changeset
  rw [ht, hf]
  show (if containsKey update f = true then
      Except.ok (applyUpdateEntries chain update (deleteSuffix chain f))
    else Except.error f) = _
  rw [hcon]
  rw [if_pos rfl]

theorem determine_changeset_not_connected {chain update : LocalChain} {tip f : Nat}
    (ht : update_tip_of update = some tip) (hf : invalidate_from_of chain update = some f)
    (hcon : containsKey update f = false) :
    determine_changeset chain update = .error f := by
  unfold determine_changeset
  rw [ht, hf]
  show (if containsKey update f = true then
      Except.ok (applyUpdateEntries chain update (deleteSuffix chain f))
    else Except.error f) = _
  rw [hcon]
  rw [if_neg (by decide)]

theorem applyUpdateEntries_all_agree {chain update : LocalChain}
    (h : ∀ p ∈ update, btGet chain p.1 = some p.2) (init : ChangeSet) :
    applyUpdateEntries chain update init = init := by
  induction update generalizing init with
  | nil => rfl
  | cons a rest ih =>
    rw [applyUpdateEntries_cons]
    rw [if_neg (fun hne => hne (h a (List.mem_cons_self _ _)).symm)]
    exact ih (fun p hp => h p (List.mem_cons_of_mem _ hp)) init

/-- Equality of `Except` results is decidable; used to evaluate the model on
concrete scenarios. -/
instance {e a : Type} [DecidableEq e] [DecidableEq a] : DecidableEq (Except e a) := by
  intro x y
  cases x <;> cases y
  case error.error u v =>
    exact decidable_of_iff (u = v) ⟨fun h => by rw [h], fun h => by injection h⟩
  case error.ok u v => exact isFalse (fun h => Except.noConfusion h)
  case ok.error u v => exact isFalse (fun h => Except.noConfusion h)
  case ok.ok u v =>
    exact decidable_of_iff (u = v) ⟨fun h => by rw [h], fun h => by injection h⟩

/-! ## Claim theorems -/

/-- C1 counterexample: store `{5:A, u32::MAX:C}` and update `{5:A}`.  The
agreement height (5) equals the update tip, so under the claim's invalidation
lower bound — the sentinel "infinity", nothing needing invalidation — no first
local height requiring invalidation exists and no connectivity error may
occur; yet `determine_changeset` fails with the error carrying `u32::MAX`,
because the code's sentinel for that bound is the real height `u32::MAX` and
the store has an entry there. -/
theorem C1_counterexample :
    determine_changeset [(5, 10), (UMAX, 2)] [(5, 10)] = .error UMAX ∧
    update_tip_of [(5, 10)] = some 5 ∧
    agreement_height_of [(5, 10), (UMAX, 2)] [(5, 10)] = some 5 := by
  refine ⟨by decide, by decide, by decide⟩

/-- C1 amended: for every local chain store and every update,
`determine_changeset` fails with a connectivity error if and only if a first
local height requiring invalidation exists — the smallest store height at or
above the invalidation lower bound, where the bound in the agreement-equals-tip
case is the code's saturated sentinel `u32::MAX` rather than a true infinity,
so a store entry at height `u32::MAX` still counts as requiring invalidation —
and the update contains no entry at exactly that height; the error carries
exactly that height. -/
theorem C1_connectivity_error_iff {chain update : LocalChain} (hc : IsBTree chain)
    (e : Nat) :
    determine_changeset chain update = .error e ↔
      ∃ tip, update_tip_of update = some tip ∧
        e ∈ chain.map Prod.fst ∧
        invalidate_lb_of chain update tip ≤ e ∧
        (∀ k ∈ chain.map Prod.fst, invalidate_lb_of chain update tip ≤ k → e ≤ k) ∧
        e ∉ update.map Prod.fst := by
  constructor
  · intro herr
    cases ht : update_tip_of update with
    | none =>
      rw [determine_changeset_empty ht] at herr
      exact Except.noConfusion herr
    | some tip =>
      cases hf : invalidate_from_of chain update with
      | none =>
        rw [determine_changeset_no_invalid ht hf] at herr
        exact Except.noConfusion herr
      | some f =>
        cases hcon : containsKey update f with
        | true =>
          rw [determine_changeset_connected ht hf hcon] at herr
          exact Except.noConfusion herr
        | false =>
          rw [determine_changeset_not_connected ht hf hcon] at herr
          injection herr with herr
          subst herr
          obtain ⟨hmem, hlb, hleast⟩ := invalidate_from_spec hc ht hf
          refine ⟨tip, rfl, hmem, hlb, hleast, ?_⟩
          rw [← btGet_eq_none_iff]
          exact containsKey_eq_false_iff.mp hcon
  · rintro ⟨tip, ht, hmem, hlb, hleast, hnot⟩
    obtain ⟨f, hf⟩ := invalidate_from_some_of_mem ht hmem hlb
    obtain ⟨hfmem, hflb, hfleast⟩ := invalidate_from_spec hc ht hf
    have hef : e = f :=
      Nat.le_antisymm (hleast f hfmem hflb) (hfleast e hmem hlb)
    subst hef
    have hcon : containsKey update e = false := by
      rw [containsKey_eq_false_iff, btGet_eq_none_iff]
      exact hnot
    exact determine_changeset_not_connected ht hf hcon

/-- C1 witness: the spec's disconnected-update scenario, store `{5:A, 6:B}`
and update `{7:D}`, fails with error height 5, which is the least store
height at or above the invalidation lower bound and absent from the update. -/
theorem C1_witness :
    ∃ tip, update_tip_of [(7, 13)] = some tip ∧
      5 ∈ ([(5, 10), (6, 11)] : LocalChain).map Prod.fst ∧
      invalidate_lb_of [(5, 10), (6, 11)] [(7, 13)] tip ≤ 5 ∧
      (∀ k ∈ ([(5, 10), (6, 11)] : LocalChain).map Prod.fst,
        invalidate_lb_of [(5, 10), (6, 11)] [(7, 13)] tip ≤ k → 5 ≤ k) ∧
      5 ∉ ([(7, 13)] : LocalChain).map Prod.fst :=
  (C1_connectivity_error_iff (by decide) 5).mp (by decide)

/-- C2: `is_block_in_chain` returns indeterminate when the queried block is
higher than the static block; otherwise, with both heights present it returns
definitely-yes exactly when both stored hashes match, with either height
absent it returns indeterminate; and it never returns an error. -/
theorem C2_is_block_in_chain_contract (chain : LocalChain)
    (block static_block : BlockId) :
    (static_block.height < block.height →
      is_block_in_chain chain block static_block = .ok none) ∧
    (block.height ≤ static_block.height →
      (∀ h sh, btGet chain block.height = some h →
        btGet chain static_block.height = some sh →
        is_block_in_chain chain block static_block =
          .ok (some (decide (h = block.hash ∧ sh = static_block.hash)))) ∧
      ((btGet chain block.height = none ∨ btGet chain static_block.height = none) →
        is_block_in_chain chain block static_block = .ok none)) ∧
    (∀ err : Empty, is_block_in_chain chain block static_block ≠ .error err) := by
  refine ⟨?_, ?_, fun err => err.elim⟩
  · intro hlt
    unfold is_block_in_chain
    rw [if_pos hlt]
  · intro hle
    constructor
    · intro h sh hh hsh
      unfold is_block_in_chain
      rw [if_neg (Nat.not_lt.mpr hle), hh, hsh]
      show Except.ok (some (h == block.hash && sh == static_block.hash)) = _
      by_cases h1 : h = block.hash <;> by_cases h2 : sh = static_block.hash <;>
        simp [h1, h2]
    · intro hnone
      unfold is_block_in_chain
      rw [if_neg (Nat.not_lt.mpr hle)]
      cases hg1 : btGet chain block.height with
      | none =>
        cases hg2 : btGet chain static_block.height with
        | none => rfl
        | some sh => rfl
      | some h =>
        cases hg2 : btGet chain static_block.height with
        | none => rfl
        | some sh =>
          rcases hnone with hn | hn
          · rw [hg1] at hn
            exact Option.noConfusion hn
          · rw [hg2] at hn
            exact Option.noConfusion hn

/-- C2 witness: the spec's ancestor-query scenario on store `{5:A, 10:B}`:
matching hashes give definitely-yes. -/
theorem C2_witness :
    is_block_in_chain [(5, 10), (10, 11)] ⟨5, 10⟩ ⟨10, 11⟩ =
      .ok (some (decide (10 = 10 ∧ 11 = 11))) :=
  ((C2_is_block_in_chain_contract [(5, 10), (10, 11)] ⟨5, 10⟩ ⟨10, 11⟩).2.1
    (by decide)).1 10 11 (by decide) (by decide)

/-- C5: `apply_update` equals `determine_changeset` followed by
`apply_changeset` of the result when reconciliation succeeds, and on a
connectivity error the store contents are exactly the ones before the call. -/
theorem C5_apply_update_composition (chain update : LocalChain) :
    (∀ cs, determine_changeset chain update = .ok cs →
      apply_update chain update = (apply_changeset chain cs, .ok cs)) ∧
    (∀ e, determine_changeset chain update = .error e →
      apply_update chain update = (chain, .error e)) := by
  constructor
  · intro cs hok
    unfold apply_update
    rw [hok]
  · intro e herr
    unfold apply_update
    rw [herr]

/-- C5 witness: the pure-extension scenario succeeds and composes; the
disconnected scenario fails and leaves the store untouched. -/
theorem C5_witness :
    apply_update [(5, 10), (6, 11)] [(6, 11), (7, 12)] =
      (apply_changeset [(5, 10), (6, 11)] [(7, some 12)], .ok [(7, some 12)]) ∧
    apply_update [(5, 10), (6, 11)] [(7, 13)] = ([(5, 10), (6, 11)], .error 5) :=
  ⟨(C5_apply_update_composition [(5, 10), (6, 11)] [(6, 11), (7, 12)]).1
      [(7, some 12)] (by decide),
    (C5_apply_update_composition [(5, 10), (6, 11)] [(7, 13)]).2 5 (by decide)⟩

/-- C7: applying `initial_changeset` of a store to an empty store reproduces
the original store exactly, for any store contents. -/
theorem C7_initial_changeset_roundtrip {chain : LocalChain} (hc : IsBTree chain) :
    apply_changeset [] (initial_changeset chain) = chain := by
  have hcs : IsBTree (initial_changeset chain) :=
    isBTree_mapValues hc (fun p => some p.2)
  apply btree_ext (isBTree_apply_changeset List.Pairwise.nil _) hc
  intro k
  rw [btGet_apply_changeset hcs]
  have hmap : btGet (initial_changeset chain) k = (btGet chain k).map some := by
    unfold initial_changeset
    exact btGet_map chain some k
  rw [hmap]
  cases hg : btGet chain k with
  | none => rfl
  | some v => rfl

/-- C7 witness: round-trip of the store `{5:A, 6:B}`. -/
theorem C7_witness :
    apply_changeset [] (initial_changeset [(5, 10), (6, 11)]) = [(5, 10), (6, 11)] :=
  C7_initial_changeset_roundtrip (by decide)

/-- C8: applying the same ChangeSet a second time to the store obtained after
the first application leaves the store's contents unchanged. -/
theorem C8_apply_changeset_idempotent {chain : LocalChain} {changeset : ChangeSet}
    (hc : IsBTree chain) (hcs : IsBTree changeset) :
    apply_changeset (apply_changeset chain changeset) changeset =
      apply_changeset chain changeset := by
  apply btree_ext (isBTree_apply_changeset (isBTree_apply_changeset hc _) _)
    (isBTree_apply_changeset hc _)
  intro k
  rw [btGet_apply_changeset hcs, btGet_apply_changeset hcs]
  cases hg : btGet changeset k with
  | none => rfl
  | some w => cases w <;> rfl

/-- C8 witness: re-applying the reorg changeset `{6: present(C)}` to the
already-advanced store `{5:A, 6:C}` changes nothing. -/
theorem C8_witness :
    apply_changeset (apply_changeset [(5, 10), (6, 11)] [(6, some 12)]) [(6, some 12)] =
      apply_changeset [(5, 10), (6, 11)] [(6, some 12)] :=
  C8_apply_changeset_idempotent (by decide) (by decide)

/-- C10: after a successful `apply_update`, every store entry whose height is
not a key of the update and lies strictly below the first-invalidation height
(at any height when none was found) is present and unchanged. -/
theorem C10_preserves_unaffected {chain update : LocalChain} (hc : IsBTree chain)
    (hu : IsBTree update) {posterior : LocalChain} {cs : ChangeSet}
    (happ : apply_update chain update = (posterior, .ok cs)) {k : Nat} {v : BlockHash}
    (hk : btGet chain k = some v) (hnk : containsKey update k = false)
    (hfrontier : ∀ f, invalidate_from_of chain update = some f → k < f) :
    btGet posterior k = some v := by
  have hsplit : determine_changeset chain update = .ok cs ∧
      posterior = apply_changeset chain cs := by
    unfold apply_update at happ
    cases hd : determine_changeset chain update with
    | error e =>
      simp only [hd] at happ
      injection happ with h1 h2
      exact Except.noConfusion h2
    | ok cs0 =>
      simp only [hd] at happ
      injection happ with h1 h2
      injection h2 with h2
      subst h2
      exact ⟨rfl, h1.symm⟩
  obtain ⟨hok, hpost⟩ := hsplit
  subst hpost
  have hcsb : IsBTree cs := determine_changeset_ok_isBTree hc hok
  rw [btGet_apply_changeset hcsb]
  have hcsk : btGet cs k = none := by
    rw [determine_changeset_ok_get hu hok k]
    rw [containsKey_eq_false_iff.mp hnk]
    cases hf : invalidate_from_of chain update with
    | none => rw [staleAt_none hf]
    | some f =>
      rw [staleAt_some hf]
      rw [if_neg (Nat.not_le_of_lt (hfrontier f hf))]
  rw [hcsk]
  exact hk

/-- C10 witness: in the pure-extension scenario the old checkpoint at
height 5 is preserved by `apply_update`. -/
theorem C10_witness : btGet [(5, 10), (6, 11), (7, 12)] 5 = some 10 :=
  C10_preserves_unaffected (by decide) (by decide)
    (show apply_update [(5, 10), (6, 11)] [(6, 11), (7, 12)] =
      ([(5, 10), (6, 11), (7, 12)], .ok [(7, some 12)]) by decide)
    (by decide) (by decide)
    (fun f hf => Option.noConfusion hf)

/-- C3 counterexample: with store `{u32::MAX: 0}` and update `{u32::MAX: 0}`
(which agree at height `u32::MAX`), `determine_changeset` succeeds yet the
returned ChangeSet contains an entry at exactly that agreeing height, because
the code reuses `u32::MAX` as the "infinity" sentinel for the invalidation
lower bound. -/
theorem C3_counterexample :
    determine_changeset [(UMAX, 0)] [(UMAX, 0)] = .ok [(UMAX, none)] ∧
    btGet [(UMAX, 0)] UMAX = some 0 ∧
    containsKey [(UMAX, (none : Option BlockHash))] UMAX = true := by
  refine ⟨by decide, by decide, by decide⟩

/-- C3 amended: on a successful reconciliation the returned ChangeSet contains
no entry at any height below `u32::MAX` where the store and the update record
the same identity. -/
theorem C3_minimality_below_max {chain update : LocalChain} (hc : IsBTree chain)
    (hu : IsBTree update) {cs : ChangeSet}
    (hok : determine_changeset chain update = .ok cs) {k : Nat} {v : BlockHash}
    (hk : k < UMAX) (hck : btGet chain k = some v) (huk : btGet update k = some v) :
    containsKey cs k = false := by
  rw [containsKey_eq_false_iff]
  rw [determine_changeset_ok_get hu hok k]
  simp only [huk]
  rw [if_pos hck.symm]
  cases hf : invalidate_from_of chain update with
  | none => rw [staleAt_none hf]
  | some f =>
    cases ht : update_tip_of update with
    | none =>
      unfold invalidate_from_of at hf
      rw [ht] at hf
      exact Option.noConfusion hf
    | some tip =>
      rw [staleAt_some hf]
      obtain ⟨hfmem, hflb, hfleast⟩ := invalidate_from_spec hc ht hf
      have hklb : k < invalidate_lb_of chain update tip :=
        lt_invalidate_lb_of_agree hu ht hck huk hk
      rw [if_neg (Nat.not_le_of_lt (Nat.lt_of_lt_of_le hklb hflb))]

/-- C3 witness: in the reorg scenario the agreeing height 5 is absent from the
resulting ChangeSet. -/
theorem C3_witness : containsKey [(6, some 12)] 5 = false :=
  C3_minimality_below_max (by decide) (by decide)
    (show determine_changeset [(5, 10), (6, 11)] [(5, 10), (6, 12)] = .ok [(6, some 12)]
      by decide)
    (by decide) (show btGet [(5, 10), (6, 11)] 5 = some 10 by decide)
    (show btGet [(5, 10), (6, 12)] 5 = some 10 by decide)

/-- C4 counterexample: store `{u32::MAX: 0}` and update `{u32::MAX: 0}`; the
update's greatest-height entry already matches the store at that height, yet
the changeset returned by `determine_changeset` consists of a deletion entry
at `u32::MAX`. -/
theorem C4_counterexample :
    update_tip_of [(UMAX, 0)] = some UMAX ∧
    btGet [(UMAX, 0)] UMAX = some 0 ∧
    determine_changeset [(UMAX, 0)] [(UMAX, 0)] = .ok [(UMAX, none)] ∧
    (UMAX, (none : Option BlockHash)) ∈ [(UMAX, (none : Option BlockHash))] := by
  refine ⟨by decide, by decide, by decide, by decide⟩

/-- C4 amended: when the update's greatest-height entry already matches the
store at that height and that height is below `u32::MAX` (store heights being
`u32` values), a successful `determine_changeset` returns a ChangeSet with no
absent-marker (deletion) entries. -/
theorem C4_no_deletions_when_tip_agrees {chain update : LocalChain} (hc : IsBTree chain)
    (hu : IsBTree update) (hbound : ∀ p ∈ chain, p.1 ≤ UMAX) {tip : Nat}
    {v : BlockHash} (ht : update_tip_of update = some tip) (htlt : tip < UMAX)
    (hut : btGet update tip = some v) (hct : btGet chain tip = some v)
    {cs : ChangeSet} (hok : determine_changeset chain update = .ok cs) :
    ∀ p ∈ cs, p.2 ≠ none := by
  have hag : agreement_height_of chain update = some tip := by
    cases hag0 : agreement_height_of chain update with
    | none => exact absurd hct (agreement_none hag0 tip v (mem_of_btGet_eq_some hut))
    | some a =>
      obtain ⟨w, hwmem, hcw, hgr⟩ := agreement_spec hu hag0
      have h1 : tip ≤ a := hgr tip v (mem_of_btGet_eq_some hut) hct
      have h2 : a ≤ tip := (update_tip_spec hu ht).2 a (List.mem_map_of_mem Prod.fst hwmem)
      rw [Nat.le_antisymm h2 h1]
  have hlb : invalidate_lb_of chain update tip = UMAX := by
    unfold invalidate_lb_of
    simp only [hag]
    simp
  have hf : invalidate_from_of chain update = none := by
    cases hf0 : invalidate_from_of chain update with
    | none => rfl
    | some f =>
      exfalso
      obtain ⟨hfmem, hflb, hfleast⟩ := invalidate_from_spec hc ht hf0
      rw [hlb] at hflb
      rcases List.mem_map.mp hfmem with ⟨q, hq, hqf⟩
      have hfle : f ≤ UMAX := hqf ▸ hbound q hq
      have hfeq : f = UMAX := Nat.le_antisymm hfle hflb
      have hcon := determine_changeset_ok_connected hok hf0
      rw [containsKey_iff_btGet] at hcon
      cases hg : btGet update f with
      | none => exact hcon hg
      | some w =>
        have hfmem2 : f ∈ update.map Prod.fst :=
          List.mem_map_of_mem Prod.fst (mem_of_btGet_eq_some hg)
        have := (update_tip_spec hu ht).2 f hfmem2
        rw [hfeq] at this
        exact Nat.not_le_of_lt htlt this
  intro p hp hpnone
  have hcsb : IsBTree cs := determine_changeset_ok_isBTree hc hok
  have hget : btGet cs p.1 = some p.2 := btGet_eq_some_of_mem hcsb (by
    cases p
    exact hp)
  rw [determine_changeset_ok_get hu hok p.1] at hget
  rw [staleAt_none hf] at hget
  cases hg : btGet update p.1 with
  | none =>
    simp only [hg] at hget
    exact Option.noConfusion hget
  | some w =>
    simp only [hg] at hget
    by_cases hd : some w = btGet chain p.1
    · rw [if_pos hd] at hget
      exact Option.noConfusion hget
    · rw [if_neg hd] at hget
      injection hget with hget
      rw [hpnone] at hget
      exact Option.noConfusion hget

/-- C4 witness: store `{5:A, 6:B}` and update `{4:X, 6:B}` agree at the update
tip 6; the resulting ChangeSet `{4: present(X)}` has no deletions. -/
theorem C4_witness : ((4, some 9) : Nat × Option BlockHash).2 ≠ none :=
  C4_no_deletions_when_tip_agrees (by decide) (by decide) (by decide)
    (show update_tip_of [(4, 9), (6, 11)] = some 6 by decide) (by decide)
    (by decide) (show btGet [(5, 10), (6, 11)] 6 = some 11 by decide)
    (show determine_changeset [(5, 10), (6, 11)] [(4, 9), (6, 11)] = .ok [(4, some 9)]
      by decide)
    (4, some 9) (by decide)

/-- C6 counterexample: for the store `{u32::MAX: 0}`, reconciling against its
own contents does not yield an empty ChangeSet — the `u32::MAX` sentinel makes
the store's own entry at that height a deletion candidate. -/
theorem C6_counterexample :
    determine_changeset [(UMAX, 0)] [(UMAX, 0)] ≠ .ok [] := by decide

/-- C6 amended: for every store with all heights below `u32::MAX`,
reconciling the store against its own contents yields the empty ChangeSet,
and applying an empty ChangeSet leaves any store unchanged. -/
theorem C6_self_update_identity {chain : LocalChain} (hc : IsBTree chain)
    (hbound : ∀ p ∈ chain, p.1 < UMAX) :
    determine_changeset chain chain = .ok [] ∧
    ∀ c : LocalChain, apply_changeset c [] = c := by
  refine ⟨?_, fun c => rfl⟩
  cases ht : update_tip_of chain with
  | none => exact determine_changeset_empty ht
  | some tip =>
    have hagree : ∀ p ∈ chain, btGet chain p.1 = some p.2 := by
      intro p hp
      cases p
      exact btGet_eq_some_of_mem hc hp
    have htipmem : tip ∈ chain.map Prod.fst := (update_tip_spec hc ht).1
    rcases List.mem_map.mp htipmem with ⟨q, hq, hqt⟩
    have hmemt : (tip, q.2) ∈ chain := by
      rw [← hqt]
      exact hq
    have hgt : btGet chain tip = some q.2 := btGet_eq_some_of_mem hc hmemt
    have hag : agreement_height_of chain chain = some tip := by
      cases hag0 : agreement_height_of chain chain with
      | none => exact absurd hgt (agreement_none hag0 tip q.2 hmemt)
      | some a =>
        obtain ⟨w, hwmem, hcw, hgr⟩ := agreement_spec hc hag0
        have h1 : tip ≤ a := hgr tip q.2 hmemt hgt
        have h2 : a ≤ tip := (update_tip_spec hc ht).2 a (List.mem_map_of_mem Prod.fst hwmem)
        rw [Nat.le_antisymm h2 h1]
    have hlb : invalidate_lb_of chain chain tip = UMAX := by
      unfold invalidate_lb_of
      simp only [hag]
      simp
    have hf : invalidate_from_of chain chain = none := by
      unfold invalidate_from_of
      simp only [ht, hlb]
      rw [Option.map_eq_none', filter_head_none]
      intro p hp
      exact Nat.not_le_of_lt (hbound p hp)
    rw [determine_changeset_no_invalid ht hf]
    rw [applyUpdateEntries_all_agree hagree]

/-- C6 witness: the store `{5:A, 6:B}` reconciled against itself yields the
empty ChangeSet, and an empty ChangeSet is a no-op on the store `{7:X}`. -/
theorem C6_witness :
    determine_changeset [(5, 10), (6, 11)] [(5, 10), (6, 11)] = .ok [] ∧
    apply_changeset [(7, 1)] [] = [(7, 1)] :=
  ⟨(C6_self_update_identity (by decide) (by decide)).1,
    (@C6_self_update_identity [(5, 10), (6, 11)] (by decide) (by decide)).2 [(7, 1)]⟩

/-- C9 counterexample: with store `{u32::MAX: 0}` and update `{u32::MAX: 0}`,
`apply_update` succeeds yet deletes the store's entry at `u32::MAX`, so the
resulting store does not record the update's identity at that height. -/
theorem C9_counterexample :
    (apply_update [(UMAX, 0)] [(UMAX, 0)]).2 = .ok [(UMAX, none)] ∧
    btGet [(UMAX, 0)] UMAX = some 0 ∧
    btGet (apply_update [(UMAX, 0)] [(UMAX, 0)]).1 UMAX = none := by
  refine ⟨by decide, by decide, by decide⟩

/-- C9 amended: after a successful `apply_update` the store records exactly
the update's identity at every update height below `u32::MAX`. -/
theorem C9_apply_update_agrees_below_max {chain update : LocalChain} (hc : IsBTree chain)
    (hu : IsBTree update) {posterior : LocalChain} {cs : ChangeSet}
    (happ : apply_update chain update = (posterior, .ok cs)) {k : Nat} {v : BlockHash}
    (hk : k < UMAX) (huk : btGet update k = some v) :
    btGet posterior k = some v := by
  have hsplit : determine_changeset chain update = .ok cs ∧
      posterior = apply_changeset chain cs := by
    unfold apply_update at happ
    cases hd : determine_changeset chain update with
    | error e =>
      simp only [hd] at happ
      injection happ with h1 h2
      exact Except.noConfusion h2
    | ok cs0 =>
      simp only [hd] at happ
      injection happ with h1 h2
      injection h2 with h2
      subst h2
      exact ⟨rfl, h1.symm⟩
  obtain ⟨hok, hpost⟩ := hsplit
  subst hpost
  have hcsb : IsBTree cs := determine_changeset_ok_isBTree hc hok
  rw [btGet_apply_changeset hcsb]
  have hchar := determine_changeset_ok_get hu hok k
  simp only [huk] at hchar
  by_cases hd : some v = btGet chain k
  · rw [if_pos hd] at hchar
    have hstale : staleAt chain update k = none := by
      cases hf : invalidate_from_of chain update with
      | none => exact staleAt_none hf k
      | some f =>
        rw [staleAt_some hf]
        cases ht : update_tip_of update with
        | none =>
          exfalso
          have hemp : update = [] := update_tip_eq_none_iff.mp ht
          subst hemp
          exact Option.noConfusion huk
        | some tip =>
          obtain ⟨hfmem, hflb, hfleast⟩ := invalidate_from_spec hc ht hf
          have hklb : k < invalidate_lb_of chain update tip :=
            lt_invalidate_lb_of_agree hu ht hd.symm huk hk
          rw [if_neg (Nat.not_le_of_lt (Nat.lt_of_lt_of_le hklb hflb))]
    rw [hstale] at hchar
    rw [hchar]
    exact hd.symm
  · rw [if_neg hd] at hchar
    rw [hchar]

/-- C9 witness: in the reorg scenario `apply_update` succeeds and the
resulting store records the update's identity at height 6. -/
theorem C9_witness : btGet [(5, 10), (6, 12)] 6 = some 12 :=
  C9_apply_update_agrees_below_max (by decide) (by decide)
    (show apply_update [(5, 10), (6, 11)] [(5, 10), (6, 12)] =
      ([(5, 10), (6, 12)], .ok [(6, some 12)]) by decide)
    (by decide) (show btGet [(5, 10), (6, 12)] 6 = some 12 by decide)
